import Mathlib

/-!
# Verification of the `sleeper` countdown utility

Shallow embedding of the three C variants of `sleep_progress.c`:

* `Basic` — `src/sleep_progress.c`: single/multi-line "Elapsed | Remaining"
  output, no progress bar, loop `while (elapsed < total)` rendering *after*
  each completed sleep.
* `Plain` — `src/unnamed/part_000`: progress bar without ANSI colors,
  `--quiet` flag, loop `while (elapsed <= total)` rendering *before* the
  check/sleep, `break` at `elapsed == total`.
* `Color` — `src/unnamed/part_001`: identical control flow to `Plain`,
  ANSI color codes in the output strings (the colors do not affect any
  quantity modelled here).

Modelling decisions, all taken from the source:

* The interrupt latch (`interrupted`, set by the SIGINT / console-control
  handler) is modelled by an optional discrete instant `intr : Option ℕ`
  at which the latch becomes set; once set it stays set (`latchSet` is
  monotone in the instant).  Each loop iteration at `elapsed = e` contains
  two observation points of the latch: instant `2*e` — the
  `was_interrupted()` check before the sleep — and instant `2*e + 1` — the
  sleep window itself, i.e. `sleep_one_second()` returning -1 (in the bar
  variants the second `was_interrupted()` immediately after the sleep
  observes the same window; since the latch is monotone the disjunction
  `sleep_one_second() != 0 || was_interrupted()` is one observation).
* `long` durations are mathematical integers; `strtol` is modelled with the
  LP64 bounds `LONG_MAX = 2^63 - 1`, `LONG_MIN = -2^63` and ERANGE clamping.
  `errno` is 0 when `main` starts and nothing sets it before the single
  `strtol` call, in every variant.
* The observable outcome of a run is collected in `RunResult`: the exit
  code, how many times `sleep_one_second` was called, the list of `elapsed`
  values at which a progress line was rendered to stdout, the
  "Interrupted at %ld/%ld seconds." stderr message (its two numbers), whether
  the final "Done." summary line was printed, the list of `elapsed` values at
  each evaluation of the loop condition, and the final value of `elapsed`.
* `print_bar` computes with C `float` (IEEE binary32) arithmetic; it is
  modelled exactly, by executable natural-number arithmetic implementing
  round-to-nearest-even (see the `F32` section), assuming
  `FLT_EVAL_METHOD = 0` (every operation rounded to binary32).
-/

namespace Sleeper

/-- Observable outcome of one run of the program (any variant). -/
structure RunResult where
  /-- process exit code -/
  exitCode : ℕ
  /-- number of calls to `sleep_one_second` -/
  sleeps : ℕ
  /-- `elapsed` value at each progress line printed to stdout, in order -/
  renders : List ℕ
  /-- the numbers `(elapsed, total)` of the stderr message
      "Interrupted at elapsed/total seconds.", if printed -/
  intrMsg : Option (ℕ × ℕ)
  /-- whether the final "Done." summary line was printed to stdout -/
  doneMsg : Bool
  /-- `elapsed` value at each evaluation of the loop condition, in order;
      empty iff the timing loop was never entered -/
  trace : List ℕ
  /-- final value of the `elapsed` variable -/
  finalElapsed : ℕ
deriving Repr, DecidableEq

/-- Result of every usage/parse-error path: exit code 1, no sleep performed,
no progress rendered, timing loop never entered. -/
def usageExit : RunResult :=
  { exitCode := 1, sleeps := 0, renders := [], intrMsg := none,
    doneMsg := false, trace := [], finalElapsed := 0 }

/-- The interrupt latch: `intr = some t` means the latch becomes set at
discrete instant `t` (and stays set); `none` means no SIGINT is ever
delivered.  `latchSet intr now` is what `was_interrupted()` returns when
observed at instant `now`. -/
def latchSet (intr : Option ℕ) (now : ℕ) : Bool :=
  match intr with
  | none => false
  | some t => t ≤ now

/-! ## Argument parsing (`strtol` base 10, LP64 `long`) -/

/-- `LONG_MAX` for a 64-bit `long` (LP64). -/
def LONG_MAX : ℤ := 2 ^ 63 - 1

/-- `LONG_MIN` for a 64-bit `long` (LP64). -/
def LONG_MIN : ℤ := -(2 ^ 63)

/-- C `isspace` in the default locale. -/
def isSpaceC (c : Char) : Bool :=
  c = ' ' || c = '\t' || c = '\n' || c = '\x0b' || c = '\x0c' || c = '\r'

/-- C `isdigit`. -/
def isDigitC (c : Char) : Bool := '0' ≤ c && c ≤ '9'

/-- Numeric value of a decimal digit character. -/
def digitVal (c : Char) : ℕ := c.toNat - '0'.toNat

/-- Consume a maximal run of decimal digits, accumulating their value.
Returns (value, number of digits consumed, remaining characters). -/
def scanDigits : List Char → ℕ → ℕ → ℕ × ℕ × List Char
  | [], acc, n => (acc, n, [])
  | c :: cs, acc, n =>
    if isDigitC c then scanDigits cs (acc * 10 + digitVal c) (n + 1)
    else (acc, n, c :: cs)

/-- Outcome of `strtol(s, &end, 10)`: the returned `long`, the characters
from `*end` on, whether `ERANGE` was raised, and whether no conversion was
performed (`end == nptr`). -/
structure StrtolResult where
  value : ℤ
  rest : List Char
  erange : Bool
  noConv : Bool
deriving Repr, DecidableEq

/-- `strtol` with base 10: skip `isspace` characters, one optional sign,
then a maximal digit run; on no digits `end` is reset to the start of the
string; out-of-range values are clamped to `LONG_MAX`/`LONG_MIN` with
`ERANGE`. -/
def strtol10 (s : List Char) : StrtolResult :=
  let s1 := s.dropWhile (fun c => isSpaceC c)
  let signAndRest : Bool × List Char :=
    match s1 with
    | '-' :: cs => (true, cs)
    | '+' :: cs => (false, cs)
    | _ => (false, s1)
  let out := scanDigits signAndRest.2 0 0
  if out.2.1 = 0 then
    { value := 0, rest := s, erange := false, noConv := true }
  else
    let v : ℤ := if signAndRest.1 then -(out.1 : ℤ) else (out.1 : ℤ)
    if v > LONG_MAX then
      { value := LONG_MAX, rest := out.2.2, erange := true, noConv := false }
    else if v < LONG_MIN then
      { value := LONG_MIN, rest := out.2.2, erange := true, noConv := false }
    else
      { value := v, rest := out.2.2, erange := false, noConv := false }

/-- The duration-argument check shared by all variants
(`sleep_progress.c` lines 92-98, `part_000` lines 99-104, `part_001`
lines 110-115): `strtol` followed by
`errno != 0 || end == argv[i] || *end != '\0' || total < 0`.
Returns the accepted value, or `none` for the usage-error path.
(`errno` is 0 on entry in every variant: `sleep_progress.c` resets it
explicitly; in `part_000`/`part_001` it still holds its initial value 0 at
the single `strtol` call.) -/
def checkDuration (s : String) : Option ℤ :=
  let r := strtol10 s.toList
  if r.erange ∨ r.noConv ∨ r.rest ≠ [] ∨ r.value < 0 then none else some r.value

namespace Basic

/-- The countdown loop of `src/sleep_progress.c` `main` (lines 111-133),
`while (elapsed < total)`.  `e` is `elapsed`, `r` is `total - e` (the number
of iterations left); callers maintain `e + r = total`.  Each iteration:
`was_interrupted()` at instant `2*e`; `sleep_one_second()` over instant
`2*e + 1`; then `elapsed++` and a progress line showing the new `elapsed`. -/
def loop (intr : Option ℕ) (total : ℕ) : ℕ → ℕ → RunResult
  | e, 0 =>
    { exitCode := 0, sleeps := 0, renders := [], intrMsg := none,
      doneMsg := true, trace := [e], finalElapsed := e }
  | e, r + 1 =>
    if latchSet intr (2 * e) then
      { exitCode := 130, sleeps := 0, renders := [], intrMsg := some (e, total),
        doneMsg := false, trace := [e], finalElapsed := e }
    else if latchSet intr (2 * e + 1) then
      { exitCode := 130, sleeps := 1, renders := [], intrMsg := some (e, total),
        doneMsg := false, trace := [e], finalElapsed := e }
    else
      let res := loop intr total (e + 1) r
      { exitCode := res.exitCode, sleeps := res.sleeps + 1,
        renders := (e + 1) :: res.renders, intrMsg := res.intrMsg,
        doneMsg := res.doneMsg, trace := e :: res.trace,
        finalElapsed := res.finalElapsed }

/-- A run of the basic variant after successful argument parsing:
`elapsed = 0`, then the countdown loop.  (`--multiline` only changes
line-overwriting vs. line-per-tick formatting, none of the modelled
quantities.) -/
def run (total : ℕ) (intr : Option ℕ) : RunResult :=
  loop intr total 0 total

/-- `main` of `src/sleep_progress.c` (lines 81-138).  `argv` is the argument
list after the program name (so C `argc = argv.length + 1`): reject unless
`argc` is 2 or 3; with 3 arguments, `argv[2]` sets `--multiline` if it
compares equal and is otherwise ignored; then parse `argv[1]` as the
duration and run the countdown loop. -/
def main (argv : List String) (intr : Option ℕ) : RunResult :=
  match argv with
  | [a] =>
    (match checkDuration a with
     | some v => run v.toNat intr
     | none => usageExit)
  | [a, _b] =>
    (match checkDuration a with
     | some v => run v.toNat intr
     | none => usageExit)
  | _ => usageExit

end Basic

namespace Plain

/-- The countdown loop of `src/unnamed/part_000` `main` (lines 126-151),
`while (elapsed <= total)`: render a progress line (unless `--quiet`),
`break` when `elapsed == total`, otherwise
`was_interrupted() || sleep_one_second() != 0 || was_interrupted()`
(instants `2*e` and `2*e + 1`), then `elapsed++`. -/
def loop (intr : Option ℕ) (quiet : Bool) (total : ℕ) : ℕ → ℕ → RunResult
  | e, 0 =>
    { exitCode := 0, sleeps := 0, renders := if quiet then [] else [e],
      intrMsg := none, doneMsg := true, trace := [e], finalElapsed := e }
  | e, r + 1 =>
    let rend : List ℕ := if quiet then [] else [e]
    if latchSet intr (2 * e) then
      { exitCode := 130, sleeps := 0, renders := rend, intrMsg := some (e, total),
        doneMsg := false, trace := [e], finalElapsed := e }
    else if latchSet intr (2 * e + 1) then
      { exitCode := 130, sleeps := 1, renders := rend, intrMsg := some (e, total),
        doneMsg := false, trace := [e], finalElapsed := e }
    else
      let res := loop intr quiet total (e + 1) r
      { exitCode := res.exitCode, sleeps := res.sleeps + 1,
        renders := rend ++ res.renders, intrMsg := res.intrMsg,
        doneMsg := res.doneMsg, trace := e :: res.trace,
        finalElapsed := res.finalElapsed }

/-- A run of the `part_000` variant after successful argument parsing. -/
def run (total : ℕ) (intr : Option ℕ) (quiet : Bool) : RunResult :=
  loop intr quiet total 0 total

/-- The argument scan of `part_000` `main` (lines 93-106): `--multiline` and
`--quiet`/`-q` set their flags; any other token is parsed as the duration if
the duration (sentinel `-1`) is still unset — returning `none` (exit 1) if
the parse check fails — and is silently ignored otherwise. -/
def scanArgs : List String → Bool → Bool → ℤ → Option (Bool × Bool × ℤ)
  | [], m, q, t => some (m, q, t)
  | a :: rest, m, q, t =>
    if a = "--multiline" then scanArgs rest true q t
    else if a = "--quiet" ∨ a = "-q" then scanArgs rest m true t
    else if t = -1 then
      match checkDuration a with
      | some v => scanArgs rest m q v
      | none => none
    else scanArgs rest m q t

/-- `main` of `src/unnamed/part_000` (lines 82-156): usage error when no
arguments; scan the arguments; error if the scan failed or no duration was
found (`total == -1`); otherwise print the header and run the loop. -/
def main (argv : List String) (intr : Option ℕ) : RunResult :=
  if argv = [] then usageExit
  else
    match scanArgs argv false false (-1) with
    | none => usageExit
    | some (_m, q, t) => if t = -1 then usageExit else run t.toNat intr q

end Plain

namespace Color

/-- The countdown loop of `src/unnamed/part_001` `main` (lines 138-162);
the control flow is character-for-character that of `part_000`, only the
ANSI escape strings in the output differ. -/
def loop (intr : Option ℕ) (quiet : Bool) (total : ℕ) : ℕ → ℕ → RunResult
  | e, 0 =>
    { exitCode := 0, sleeps := 0, renders := if quiet then [] else [e],
      intrMsg := none, doneMsg := true, trace := [e], finalElapsed := e }
  | e, r + 1 =>
    let rend : List ℕ := if quiet then [] else [e]
    if latchSet intr (2 * e) then
      { exitCode := 130, sleeps := 0, renders := rend, intrMsg := some (e, total),
        doneMsg := false, trace := [e], finalElapsed := e }
    else if latchSet intr (2 * e + 1) then
      { exitCode := 130, sleeps := 1, renders := rend, intrMsg := some (e, total),
        doneMsg := false, trace := [e], finalElapsed := e }
    else
      let res := loop intr quiet total (e + 1) r
      { exitCode := res.exitCode, sleeps := res.sleeps + 1,
        renders := rend ++ res.renders, intrMsg := res.intrMsg,
        doneMsg := res.doneMsg, trace := e :: res.trace,
        finalElapsed := res.finalElapsed }

/-- A run of the `part_001` variant after successful argument parsing. -/
def run (total : ℕ) (intr : Option ℕ) (quiet : Bool) : RunResult :=
  loop intr quiet total 0 total

/-- The argument scan of `part_001` `main` (lines 104-117), identical to
that of `part_000`. -/
def scanArgs : List String → Bool → Bool → ℤ → Option (Bool × Bool × ℤ)
  | [], m, q, t => some (m, q, t)
  | a :: rest, m, q, t =>
    if a = "--multiline" then scanArgs rest true q t
    else if a = "--quiet" ∨ a = "-q" then scanArgs rest m true t
    else if t = -1 then
      match checkDuration a with
      | some v => scanArgs rest m q v
      | none => none
    else scanArgs rest m q t

/-- `main` of `src/unnamed/part_001` (lines 93-167), identical control flow
to that of `part_000`. -/
def main (argv : List String) (intr : Option ℕ) : RunResult :=
  if argv = [] then usageExit
  else
    match scanArgs argv false false (-1) with
    | none => usageExit
    | some (_m, q, t) => if t = -1 then usageExit else run t.toNat intr q

end Color

/-! ## Exact binary32 (`float`) arithmetic for `print_bar`

`print_bar` (in `part_000` and `part_001`) computes

```c
float percentage = (total == 0) ? 1.0f : (float)elapsed / total;
int   filled_width = (int)(percentage * BAR_WIDTH);
...   (int)(percentage * 100)
```

Under `FLT_EVAL_METHOD = 0` each `float` operation is correctly rounded to
IEEE binary32 (24-bit significand, round to nearest, ties to even): the two
`long → float` conversions, the division, and the multiplication by the
exactly representable constants 20 and 100; the `int` casts truncate toward
zero (here: floor, as all values are non-negative).  Everything below is
executable natural-number arithmetic; overflow and subnormals cannot occur
for the values involved (`0 ≤ elapsed ≤ total < 2^63`). -/

namespace F32

/-- Fuel-bounded binary logarithm; `lg2F fuel n = ⌊log₂ n⌋` whenever
`1 ≤ n < 2 ^ fuel` (and 0 at 0). -/
def lg2F : ℕ → ℕ → ℕ
  | 0, _ => 0
  | fuel + 1, n => if n ≤ 1 then 0 else lg2F fuel (n / 2) + 1

/-- `⌊log₂ n⌋` for `n < 2 ^ 64`, which covers every value it is applied to
(LP64 `long` inputs and products bounded by `100 · 2 ^ 24`). -/
def lg2 (n : ℕ) : ℕ := lg2F 64 n

/-- Round-to-nearest-even of the rational `p / q` (for `q ≥ 1`), computed on
naturals: round down when the remainder is below half, up when above half,
to the even neighbour on a tie. -/
def rneDiv (p q : ℕ) : ℕ :=
  let w := p / q
  let r := p % q
  if q < 2 * r then w + 1
  else if 2 * r < q then w
  else if w % 2 = 0 then w else w + 1

/-- The binary32 value of the C conversion `(float)n` of a non-negative
`long`: exact below `2 ^ 24`, otherwise rounded to 24 significant bits
(the result is again a natural number). -/
def flNat (n : ℕ) : ℕ :=
  let L := lg2 n
  if L ≤ 23 then n
  else rneDiv n (2 ^ (L - 23)) * 2 ^ (L - 23)

/-- For `1 ≤ a ≤ b`, the natural `s` with `b ≤ a * 2 ^ s < 2 * b`,
i.e. `2 ^ (-s) ≤ a / b < 2 ^ (-s + 1)`: the binade of the quotient. -/
def divExp (a b : ℕ) : ℕ :=
  let s0 := lg2 b - lg2 a
  if b ≤ a * 2 ^ s0 then s0 else s0 + 1

/-- The binary32 division `a / b` for naturals `a ≤ b`, as a dyadic pair
`(p, k)` representing the value `p / 2 ^ k` (for `a = 0` the result is 0). -/
def flDiv (a b : ℕ) : ℕ × ℕ :=
  if a = 0 then (0, 0)
  else
    let s := divExp a b
    (rneDiv (a * 2 ^ (23 + s)) b, 23 + s)

/-- `(int)(v * c)` where `v` is the binary32 value `p / 2 ^ k` and `c` is an
exactly representable small constant (20 or 100): the float multiplication
rounds `c * p / 2 ^ k` to 24 significant bits, then the cast truncates
toward zero. -/
def truncMulFl (c p k : ℕ) : ℕ :=
  let P := c * p
  let L := lg2 P
  if L ≤ 23 then P / 2 ^ k
  else rneDiv P (2 ^ (L - 23)) * 2 ^ (L - 23) / 2 ^ k

/-- Round-to-nearest-even of a rational to an integer (the proof-level
counterpart of `rneDiv`): `⌊x + 1/2⌋`, corrected down by one on a tie that
would round to an odd integer. -/
def rneInt (x : ℚ) : ℤ :=
  if x + 1 / 2 = (⌊x + 1 / 2⌋ : ℚ) ∧ ⌊x + 1 / 2⌋ % 2 = 1 then ⌊x + 1 / 2⌋ - 1
  else ⌊x + 1 / 2⌋

/-- Rounding a positive rational to the binary32 grid (with unbounded
exponent range — exact for the normal-range values arising in `print_bar`):
scale into the binade `[2^23, 2^24)`, round to nearest even, scale back.
This is the abstract specification that the executable `flNat`, `flDiv` and
`truncMulFl` are proved to implement. -/
def rne32 (x : ℚ) : ℚ :=
  if x ≤ 0 then 0
  else (rneInt (x * 2 ^ (23 - Int.log 2 x)) : ℚ) * 2 ^ (Int.log 2 x - 23)

end F32

namespace Plain

/-- `BAR_WIDTH` of `part_000` `print_bar` (line 70). -/
def BAR_WIDTH : ℕ := 20

/-- The dyadic pair `(p, k)` (value `p / 2 ^ k`) of the `float` variable
`percentage = (total == 0) ? 1.0f : (float)elapsed / total`
(`part_000` line 71). -/
def percentage (elapsed total : ℕ) : ℕ × ℕ :=
  if total = 0 then (1, 0) else F32.flDiv (F32.flNat elapsed) (F32.flNat total)

/-- `filled_width = (int)(percentage * BAR_WIDTH)` (`part_000` line 72). -/
def filled_width (elapsed total : ℕ) : ℕ :=
  F32.truncMulFl BAR_WIDTH (percentage elapsed total).1 (percentage elapsed total).2

/-- The integer printed as the percentage:
`(int)(percentage * 100)` (`part_000` line 79). -/
def percentPrinted (elapsed total : ℕ) : ℕ :=
  F32.truncMulFl 100 (percentage elapsed total).1 (percentage elapsed total).2

/-- The 20 bar cells printed by the `for` loop of `print_bar`
(lines 75-78): cell `i` is `'#'` iff `i < filled_width`. -/
def barCells (elapsed total : ℕ) : List Bool :=
  (List.range BAR_WIDTH).map (fun i => decide (i < filled_width elapsed total))

end Plain

namespace Color

/-- `BAR_WIDTH` of `part_001` `print_bar` (line 81). -/
def BAR_WIDTH : ℕ := 20

/-- The `float` variable `percentage` of `part_001` `print_bar` (line 82),
identical arithmetic to `part_000`. -/
def percentage (elapsed total : ℕ) : ℕ × ℕ :=
  if total = 0 then (1, 0) else F32.flDiv (F32.flNat elapsed) (F32.flNat total)

/-- `filled_width = (int)(percentage * BAR_WIDTH)` (`part_001` line 83). -/
def filled_width (elapsed total : ℕ) : ℕ :=
  F32.truncMulFl BAR_WIDTH (percentage elapsed total).1 (percentage elapsed total).2

/-- `(int)(percentage * 100)` (`part_001` line 90). -/
def percentPrinted (elapsed total : ℕ) : ℕ :=
  F32.truncMulFl 100 (percentage elapsed total).1 (percentage elapsed total).2

/-- The 20 bar cells printed by `part_001` `print_bar` (lines 86-89):
cell `i` is (green) `'#'` iff `i < filled_width`. -/
def barCells (elapsed total : ℕ) : List Bool :=
  (List.range BAR_WIDTH).map (fun i => decide (i < filled_width elapsed total))

end Color

/-! ## Loop lemmas -/

/-- An uninterrupted basic-variant loop starting at `elapsed = e` with `r`
iterations left: exits 0, sleeps `r` times, renders `e+1 … e+r` (each after
its completed sleep), visits states `e … e+r`, ends at `e+r`. -/
theorem basicLoop_none (total : ℕ) : ∀ (r e : ℕ),
    Basic.loop none total e r =
      { exitCode := 0, sleeps := r, renders := List.range' (e + 1) r,
        intrMsg := none, doneMsg := true, trace := List.range' e (r + 1),
        finalElapsed := e + r } := by
  intro r
  induction r with
  | zero => intro e; simp [Basic.loop, List.range']
  | succ n ih =>
    intro e
    simp [Basic.loop, latchSet, ih (e + 1), List.range'_succ]
    omega

/-- An uninterrupted `part_000` loop starting at `elapsed = e` with `r`
sleeps left: exits 0, sleeps `r` times, renders `e … e+r` (each before the
corresponding check/sleep) unless quiet, visits states `e … e+r`, ends at
`e+r`. -/
theorem plainLoop_none (q : Bool) (total : ℕ) : ∀ (r e : ℕ),
    Plain.loop none q total e r =
      { exitCode := 0, sleeps := r,
        renders := if q then [] else List.range' e (r + 1),
        intrMsg := none, doneMsg := true, trace := List.range' e (r + 1),
        finalElapsed := e + r } := by
  intro r
  induction r with
  | zero => intro e; cases q <;> simp [Plain.loop, List.range']
  | succ n ih =>
    intro e
    cases q <;> simp [Plain.loop, latchSet, ih (e + 1), List.range'_succ] <;> omega

/-- The `part_001` loop is the very same function as the `part_000` loop. -/
theorem Color.loop_eq_plain : ∀ (intr : Option ℕ) (q : Bool) (total e r : ℕ),
    Color.loop intr q total e r = Plain.loop intr q total e r := by
  intro intr q total e r
  induction r generalizing e with
  | zero => rfl
  | succ n ih => simp [Color.loop, Plain.loop, ih (e + 1)]

/-- Latch set at instant `t` (inside the window of sleep-unit `t/2 + 1`):
if the loop starts at `e ≤ t/2` and would run past `t/2`, the basic variant
exits 130 and reports `Interrupted at (t/2)/total`. -/
theorem basicLoop_intr (total t : ℕ) : ∀ (r e : ℕ), e ≤ t / 2 → t / 2 < e + r →
    (Basic.loop (some t) total e r).exitCode = 130 ∧
    (Basic.loop (some t) total e r).intrMsg = some (t / 2, total) := by
  intro r
  induction r with
  | zero => intro e h1 h2; omega
  | succ n ih =>
    intro e h1 h2
    by_cases hpre : t ≤ 2 * e
    · simp [Basic.loop, latchSet, hpre]
      omega
    · by_cases hslp : t ≤ 2 * e + 1
      · simp [Basic.loop, latchSet, hpre, hslp]
        omega
      · have h1' : e + 1 ≤ t / 2 := by omega
        simpa [Basic.loop, latchSet, hpre, hslp] using ih (e + 1) h1' (by omega)

/-- Same as `basicLoop_intr` for the `part_000` loop: both interruption
paths (latch observed before the sleep, latch set during the sleep) report
the same `elapsed = t/2`. -/
theorem plainLoop_intr (q : Bool) (total t : ℕ) : ∀ (r e : ℕ),
    e ≤ t / 2 → t / 2 < e + r →
    (Plain.loop (some t) q total e r).exitCode = 130 ∧
    (Plain.loop (some t) q total e r).intrMsg = some (t / 2, total) := by
  intro r
  induction r with
  | zero => intro e h1 h2; omega
  | succ n ih =>
    intro e h1 h2
    by_cases hpre : t ≤ 2 * e
    · simp [Plain.loop, latchSet, hpre]
      omega
    · by_cases hslp : t ≤ 2 * e + 1
      · simp [Plain.loop, latchSet, hpre, hslp]
        omega
      · have h1' : e + 1 ≤ t / 2 := by omega
        simpa [Plain.loop, latchSet, hpre, hslp] using ih (e + 1) h1' (by omega)

/-- Invariant and exit characterisation of the basic loop: every visited
`elapsed` is at most `total`, and the loop ends either normally (exit 0,
`elapsed = total`, no interrupt message) or because the latch was set
(exit 130, message printed); there is no other exit. -/
theorem basicLoop_invariant (intr : Option ℕ) (total : ℕ) : ∀ (r e : ℕ),
    e + r = total →
    (∀ x ∈ (Basic.loop intr total e r).trace, x ≤ total) ∧
    ((Basic.loop intr total e r).exitCode = 0 ∧
       (Basic.loop intr total e r).finalElapsed = total ∧
       (Basic.loop intr total e r).intrMsg = none ∨
     (Basic.loop intr total e r).exitCode = 130 ∧ intr.isSome ∧
       (Basic.loop intr total e r).intrMsg.isSome) := by
  intro r
  induction r with
  | zero => intro e he; simp [Basic.loop]; omega
  | succ n ih =>
    intro e he
    cases h1 : latchSet intr (2 * e) with
    | true =>
      rcases intr with _ | t
      · simp [latchSet] at h1
      · simp [Basic.loop, h1]; omega
    | false =>
      cases h2 : latchSet intr (2 * e + 1) with
      | true =>
        rcases intr with _ | t
        · simp [latchSet] at h2
        · simp [Basic.loop, h1, h2]; omega
      | false =>
        have := ih (e + 1) (by omega)
        simp [Basic.loop, h1, h2]
        constructor
        · constructor
          · omega
          · exact this.1
        · exact this.2

/-- Invariant and exit characterisation of the `part_000` loop. -/
theorem plainLoop_invariant (intr : Option ℕ) (q : Bool) (total : ℕ) :
    ∀ (r e : ℕ), e + r = total →
    (∀ x ∈ (Plain.loop intr q total e r).trace, x ≤ total) ∧
    ((Plain.loop intr q total e r).exitCode = 0 ∧
       (Plain.loop intr q total e r).finalElapsed = total ∧
       (Plain.loop intr q total e r).intrMsg = none ∨
     (Plain.loop intr q total e r).exitCode = 130 ∧ intr.isSome ∧
       (Plain.loop intr q total e r).intrMsg.isSome) := by
  intro r
  induction r with
  | zero => intro e he; simp [Plain.loop]; omega
  | succ n ih =>
    intro e he
    cases h1 : latchSet intr (2 * e) with
    | true =>
      rcases intr with _ | t
      · simp [latchSet] at h1
      · simp [Plain.loop, h1]; omega
    | false =>
      cases h2 : latchSet intr (2 * e + 1) with
      | true =>
        rcases intr with _ | t
        · simp [latchSet] at h2
        · simp [Plain.loop, h1, h2]; omega
      | false =>
        have := ih (e + 1) (by omega)
        simp [Plain.loop, h1, h2]
        constructor
        · constructor
          · omega
          · exact this.1
        · exact this.2

/-- `part_001`'s run is `part_000`'s run: the control flow is identical. -/
theorem Color.run_eq_plain (total : ℕ) (intr : Option ℕ) (q : Bool) :
    Color.run total intr q = Plain.run total intr q := by
  simp [Color.run, Plain.run, Color.loop_eq_plain]

/-! ## Claim theorems -/

/-- C1: for every duration `D ≥ 0`, a run in which the interrupt latch is
never set calls `sleep_one_second` exactly `D` times, finishes with
`elapsed = D`, prints the final summary line, and exits with code 0 —
in all three variants (and for both quiet settings of the bar variants). -/
theorem C1_uninterrupted_run (D : ℕ) (q : Bool) :
    ((Basic.run D none).exitCode = 0 ∧ (Basic.run D none).sleeps = D ∧
      (Basic.run D none).finalElapsed = D ∧ (Basic.run D none).doneMsg = true) ∧
    ((Plain.run D none q).exitCode = 0 ∧ (Plain.run D none q).sleeps = D ∧
      (Plain.run D none q).finalElapsed = D ∧ (Plain.run D none q).doneMsg = true) ∧
    ((Color.run D none q).exitCode = 0 ∧ (Color.run D none q).sleeps = D ∧
      (Color.run D none q).finalElapsed = D ∧ (Color.run D none q).doneMsg = true) := by
  simp [Basic.run, Plain.run, Color.run_eq_plain, basicLoop_none, plainLoop_none]

/-- C2: if the interrupt latch becomes set during the window of sleep-unit
`k` (either at the `was_interrupted()` check before its sleep, instant
`2*(k-1)`, or during its sleep, instant `2*(k-1)+1`), with `1 ≤ k ≤ D`,
then every variant prints `Interrupted at (k-1)/D seconds.` to stderr and
exits with code 130: the `k-1` convention is shared by all variants on
both interruption paths. -/
theorem C2_interrupt_reports_k_minus_one (D k t : ℕ) (q : Bool)
    (hk1 : 1 ≤ k) (hk2 : k ≤ D)
    (ht : t = 2 * (k - 1) ∨ t = 2 * (k - 1) + 1) :
    (Basic.run D (some t)).exitCode = 130 ∧
    (Basic.run D (some t)).intrMsg = some (k - 1, D) ∧
    (Plain.run D (some t) q).exitCode = 130 ∧
    (Plain.run D (some t) q).intrMsg = some (k - 1, D) ∧
    (Color.run D (some t) q).exitCode = 130 ∧
    (Color.run D (some t) q).intrMsg = some (k - 1, D) := by
  have htd : t / 2 = k - 1 := by omega
  have hb := basicLoop_intr D t D 0 (by omega) (by omega)
  have hp := plainLoop_intr q D t D 0 (by omega) (by omega)
  rw [htd] at hb hp
  refine ⟨hb.1, hb.2, hp.1, hp.2, ?_, ?_⟩
  · rw [Color.run_eq_plain]; exact hp.1
  · rw [Color.run_eq_plain]; exact hp.2

/-- Witness for `C2_interrupt_reports_k_minus_one` at `D = 3`, `k = 2`,
latch set before the second sleep (`t = 2`). -/
theorem C2_interrupt_reports_k_minus_one_witness :
    (Basic.run 3 (some 2)).exitCode = 130 ∧
    (Basic.run 3 (some 2)).intrMsg = some (1, 3) ∧
    (Plain.run 3 (some 2) false).exitCode = 130 ∧
    (Plain.run 3 (some 2) false).intrMsg = some (1, 3) ∧
    (Color.run 3 (some 2) false).exitCode = 130 ∧
    (Color.run 3 (some 2) false).intrMsg = some (1, 3) :=
  C2_interrupt_reports_k_minus_one 3 2 2 false (by decide) (by decide)
    (Or.inl (by decide))

/-- C3: in every state visited by the countdown loop `0 ≤ elapsed ≤ D`
holds (the lower bound is inherent in the ℕ type of `elapsed`), and the
loop has exactly two exits: normal completion with `elapsed = D` (exit 0,
no interrupt message) and interruption with the latch set (exit 130,
interrupt message printed) — in all three variants. -/
theorem C3_loop_invariant_and_exits (D : ℕ) (intr : Option ℕ) (q : Bool) :
    ((∀ x ∈ (Basic.run D intr).trace, x ≤ D) ∧
      ((Basic.run D intr).exitCode = 0 ∧ (Basic.run D intr).finalElapsed = D ∧
          (Basic.run D intr).intrMsg = none ∨
        (Basic.run D intr).exitCode = 130 ∧ intr.isSome ∧
          (Basic.run D intr).intrMsg.isSome)) ∧
    ((∀ x ∈ (Plain.run D intr q).trace, x ≤ D) ∧
      ((Plain.run D intr q).exitCode = 0 ∧ (Plain.run D intr q).finalElapsed = D ∧
          (Plain.run D intr q).intrMsg = none ∨
        (Plain.run D intr q).exitCode = 130 ∧ intr.isSome ∧
          (Plain.run D intr q).intrMsg.isSome)) ∧
    ((∀ x ∈ (Color.run D intr q).trace, x ≤ D) ∧
      ((Color.run D intr q).exitCode = 0 ∧ (Color.run D intr q).finalElapsed = D ∧
          (Color.run D intr q).intrMsg = none ∨
        (Color.run D intr q).exitCode = 130 ∧ intr.isSome ∧
          (Color.run D intr q).intrMsg.isSome)) := by
  refine ⟨?_, ?_, ?_⟩
  · simpa [Basic.run] using basicLoop_invariant intr D D 0 (by omega)
  · simpa [Plain.run] using plainLoop_invariant intr q D D 0 (by omega)
  · simpa [Color.run_eq_plain, Plain.run] using
      plainLoop_invariant intr q D D 0 (by omega)

/-- C9: in a non-quiet uninterrupted run of duration `D`, the bar variants
render a progress line for every `elapsed` value `0, 1, …, D` — the line for
`elapsed = 0` before the first sleep — `D + 1` lines in total, while the
basic variant renders exactly `D` lines, for `elapsed = 1, …, D`, each after
its completed sleep. -/
theorem C9_render_counts (D : ℕ) :
    (Plain.run D none false).renders = List.range' 0 (D + 1) ∧
    (Plain.run D none false).renders.length = D + 1 ∧
    (Color.run D none false).renders = List.range' 0 (D + 1) ∧
    (Color.run D none false).renders.length = D + 1 ∧
    (Basic.run D none).renders = List.range' 1 D ∧
    (Basic.run D none).renders.length = D := by
  simp [Basic.run, Plain.run, Color.run_eq_plain, basicLoop_none, plainLoop_none]

/-- C7: a run of duration 0 completes immediately in every variant:
`sleep_one_second` is never called, the summary line is printed, the exit
code is 0 (whatever the latch schedule), and the bar variants' `print_bar`
at `elapsed = total = 0` shows a fully filled 20-cell bar and 100%. -/
theorem C7_zero_duration (intr : Option ℕ) (q : Bool) :
    (Basic.run 0 intr).exitCode = 0 ∧ (Basic.run 0 intr).sleeps = 0 ∧
    (Basic.run 0 intr).doneMsg = true ∧
    (Plain.run 0 intr q).exitCode = 0 ∧ (Plain.run 0 intr q).sleeps = 0 ∧
    (Plain.run 0 intr q).doneMsg = true ∧
    (Color.run 0 intr q).exitCode = 0 ∧ (Color.run 0 intr q).sleeps = 0 ∧
    (Color.run 0 intr q).doneMsg = true ∧
    Plain.filled_width 0 0 = 20 ∧ Plain.percentPrinted 0 0 = 100 ∧
    Plain.barCells 0 0 = List.replicate 20 true ∧
    Color.filled_width 0 0 = 20 ∧ Color.percentPrinted 0 0 = 100 ∧
    Color.barCells 0 0 = List.replicate 20 true := by
  refine ⟨?_, ?_, ?_, ?_, ?_, ?_, ?_, ?_, ?_, by decide, by decide, by decide,
    by decide, by decide, by decide⟩ <;>
    simp [Basic.run, Plain.run, Color.run_eq_plain, Basic.loop, Plain.loop]

/-- A value accepted by the duration check is non-negative (the check
rejects `total < 0`). -/
theorem checkDuration_nonneg (s : String) (v : ℤ)
    (h : checkDuration s = some v) : 0 ≤ v := by
  simp [checkDuration] at h
  exact h.2 ▸ h.1.2.2.2

/-- C10: the duration parser inherits `strtol`'s leniency: an explicit plus
sign (`"+5"`) and leading whitespace (`" 5"`) are accepted and the run
proceeds with the parsed value (exit 0 after 5 sleeps), rather than being
rejected as a usage error with exit code 1. -/
theorem C10_parser_leniency :
    checkDuration "+5" = some 5 ∧ checkDuration " 5" = some 5 ∧
    (Basic.main ["+5"] none).exitCode = 0 ∧ (Basic.main ["+5"] none).sleeps = 5 ∧
    (Basic.main [" 5"] none).exitCode = 0 ∧ (Basic.main [" 5"] none).sleeps = 5 ∧
    (Plain.main ["+5"] none).exitCode = 0 ∧ (Plain.main ["+5"] none).sleeps = 5 ∧
    (Plain.main [" 5"] none).exitCode = 0 ∧ (Plain.main [" 5"] none).sleeps = 5 := by
  decide

/-- C6: whenever the duration argument fails the `strtol`-based check —
in particular the non-numeric `"abc"`, the negative `"-5"`, the
trailing-garbage `"3.5"` — or is missing entirely, every variant takes the
error path: a message is printed to stderr, the exit code is 1, and the
timing loop is never entered (no sleep, no progress line, empty trace). -/
theorem C6_malformed_duration (s b : String) (intr : Option ℕ)
    (h : checkDuration s = none) :
    Basic.main [s] intr = usageExit ∧
    Basic.main [s, b] intr = usageExit ∧
    Basic.main [] intr = usageExit ∧
    Plain.main [s] intr = usageExit ∧
    Plain.main [] intr = usageExit ∧
    Color.main [s] intr = usageExit ∧
    Color.main [] intr = usageExit ∧
    usageExit.exitCode = 1 ∧ usageExit.sleeps = 0 ∧
    usageExit.renders = [] ∧ usageExit.trace = [] ∧
    checkDuration "abc" = none ∧ checkDuration "-5" = none ∧
    checkDuration "3.5" = none := by
  have hsm : checkDuration "--multiline" = none := by decide
  have hsq : checkDuration "--quiet" = none := by decide
  have hq : checkDuration "-q" = none := by decide
  by_cases h1 : s = "--multiline" <;>
    by_cases h2 : s = "--quiet" <;>
      by_cases h3 : s = "-q" <;>
        simp [Basic.main, Plain.main, Color.main, Plain.scanArgs, Color.scanArgs,
          h, h1, h2, h3, hsm, hsq, hq] <;>
        decide

/-- Witness for `C6_malformed_duration` at `s = "abc"`. -/
theorem C6_malformed_duration_witness :
    Basic.main ["abc"] none = usageExit ∧
    Basic.main ["abc", "--multiline"] none = usageExit ∧
    Basic.main [] none = usageExit ∧
    Plain.main ["abc"] none = usageExit ∧
    Plain.main [] none = usageExit ∧
    Color.main ["abc"] none = usageExit ∧
    Color.main [] none = usageExit ∧
    usageExit.exitCode = 1 ∧ usageExit.sleeps = 0 ∧
    usageExit.renders = [] ∧ usageExit.trace = [] ∧
    checkDuration "abc" = none ∧ checkDuration "-5" = none ∧
    checkDuration "3.5" = none :=
  C6_malformed_duration "abc" "--multiline" none (by decide)

/-- Counterexample to C5 as stated: the unrecognised flag `"--foo"` placed
before the duration is *not* silently ignored — the bar variants (and the
basic variant) treat it as the duration argument and exit 1, whereas the
same command line without it runs to completion with exit 0. -/
theorem C5_counterexample :
    (Plain.main ["--foo", "5"] none).exitCode = 1 ∧
    (Color.main ["--foo", "5"] none).exitCode = 1 ∧
    (Basic.main ["--foo", "5"] none).exitCode = 1 ∧
    (Plain.main ["5"] none).exitCode = 0 ∧
    (Color.main ["5"] none).exitCode = 0 ∧
    (Basic.main ["5"] none).exitCode = 0 := by
  decide

/-- C5 amended: an unrecognised flag token `t` is silently ignored only
when the duration has already been parsed from an earlier token (then the
behaviour is unchanged, in all three variants); a token that is not a
recognised flag is otherwise taken as the duration itself — so an
unrecognised flag encountered while the duration is unset makes the bar
variants exit 1. -/
theorem C5_amended (s t : String) (v : ℤ) (rest : List String)
    (intr : Option ℕ) (hs : checkDuration s = some v)
    (ht1 : t ≠ "--multiline") (ht2 : t ≠ "--quiet") (ht3 : t ≠ "-q")
    (htp : checkDuration t = none) :
    Plain.main [s, t] intr = Plain.main [s] intr ∧
    Color.main [s, t] intr = Color.main [s] intr ∧
    Basic.main [s, t] intr = Basic.main [s] intr ∧
    Plain.main (t :: rest) intr = usageExit ∧
    Color.main (t :: rest) intr = usageExit := by
  have hv : ¬(v = -1) := by have := checkDuration_nonneg s v hs; omega
  have hsm : checkDuration "--multiline" = none := by decide
  have hsq : checkDuration "--quiet" = none := by decide
  have hsq2 : checkDuration "-q" = none := by decide
  have hs1 : s ≠ "--multiline" := fun h' => by rw [h', hsm] at hs; cases hs
  have hs2 : s ≠ "--quiet" := fun h' => by rw [h', hsq] at hs; cases hs
  have hs3 : s ≠ "-q" := fun h' => by rw [h', hsq2] at hs; cases hs
  refine ⟨?_, ?_, ?_, ?_, ?_⟩
  · simp [Plain.main, Plain.scanArgs, hs, hs1, hs2, hs3, ht1, ht2, ht3, hv]
  · simp [Color.main, Color.scanArgs, hs, hs1, hs2, hs3, ht1, ht2, ht3, hv]
  · simp [Basic.main, hs]
  · simp [Plain.main, Plain.scanArgs, ht1, ht2, ht3, htp]
  · simp [Color.main, Color.scanArgs, ht1, ht2, ht3, htp]

/-- Witness for `C5_amended` at `s = "5"`, `t = "--foo"`. -/
theorem C5_amended_witness :
    Plain.main ["5", "--foo"] none = Plain.main ["5"] none ∧
    Color.main ["5", "--foo"] none = Color.main ["5"] none ∧
    Basic.main ["5", "--foo"] none = Basic.main ["5"] none ∧
    Plain.main ["--foo", "5"] none = usageExit ∧
    Color.main ["--foo", "5"] none = usageExit :=
  C5_amended "5" "--foo" 5 ["5"] none (by decide) (by decide) (by decide)
    (by decide) (by decide)

/-! ## Round-to-nearest-even on ℚ: basic lemmas -/

namespace F32

theorem rneInt_intCast (n : ℤ) : rneInt (n : ℚ) = n := by
  have hf : ⌊(n : ℚ) + 1 / 2⌋ = n := by
    rw [add_comm, Int.floor_add_int]
    norm_num
  have hne : ¬((n : ℚ) + 1 / 2 = (⌊(n : ℚ) + 1 / 2⌋ : ℚ) ∧ ⌊(n : ℚ) + 1 / 2⌋ % 2 = 1) := by
    rw [hf]
    intro h
    have := h.1
    simp at this
  rw [rneInt, if_neg hne, hf]

theorem rneInt_ge_floor (x : ℚ) : ⌊x⌋ ≤ rneInt x := by
  rw [rneInt]
  split
  · rename_i h
    have hx : x = (⌊x + 1 / 2⌋ : ℚ) - 1 / 2 := by linarith [h.1]
    have : ⌊x⌋ = ⌊x + 1 / 2⌋ - 1 := by
      rw [hx]
      rw [show ((⌊x + 1 / 2⌋ : ℚ) - 1 / 2) = (-(1:ℚ)/2) + (⌊x + 1 / 2⌋ : ℚ) by ring,
        Int.floor_add_int]
      norm_num
      omega
    omega
  · exact Int.floor_mono (by linarith)

theorem rneInt_le_floor_add_one (x : ℚ) : rneInt x ≤ ⌊x⌋ + 1 := by
  have h : ⌊x + 1 / 2⌋ ≤ ⌊x⌋ + 1 := by
    have h2 := Int.floor_mono (show x + 1 / 2 ≤ x + 1 by linarith)
    rwa [Int.floor_add_one] at h2
  rw [rneInt]
  split <;> omega

theorem rneInt_nonneg (x : ℚ) (hx : 0 ≤ x) : 0 ≤ rneInt x :=
  le_trans (Int.floor_nonneg.mpr hx) (rneInt_ge_floor x)

theorem rneInt_mono {x y : ℚ} (h : x ≤ y) : rneInt x ≤ rneInt y := by
  have hk : ⌊x + 1 / 2⌋ ≤ ⌊y + 1 / 2⌋ := Int.floor_mono (by linarith)
  rw [rneInt, rneInt]
  split
  · split
    · omega
    · omega
  · split
    · rename_i hxc hyt
      rcases lt_or_eq_of_le hk with hlt | heq
      · omega
      · exfalso
        have hy : y + 1 / 2 = (⌊y + 1 / 2⌋ : ℚ) := hyt.1
        have hxle : (⌊x + 1 / 2⌋ : ℚ) ≤ x + 1 / 2 := Int.floor_le _
        have hxy : x = y := by
          rw [heq] at hxle
          linarith [hxle, hy, h]
        exact hxc ⟨by rw [hxy]; exact hyt.1, by rw [heq]; exact hyt.2⟩
    · omega

theorem rne32_nonneg (x : ℚ) : 0 ≤ rne32 x := by
  rw [rne32]
  split
  · exact le_refl 0
  · rename_i hx
    push_neg at hx
    have h1 : (0 : ℤ) ≤ rneInt (x * 2 ^ (23 - Int.log 2 x)) :=
      rneInt_nonneg _ (by positivity)
    have h2 : (0 : ℚ) ≤ (rneInt (x * 2 ^ (23 - Int.log 2 x)) : ℚ) := by
      exact_mod_cast h1
    exact mul_nonneg h2 (by positivity)

/-- `⌊log₂⌋` on ℚ is determined by its binade bounds. -/
theorem log2_eq_of_bounds {x : ℚ} {m : ℤ} (hx : 0 < x)
    (h1 : (2 : ℚ) ^ m ≤ x) (h2 : x < (2 : ℚ) ^ (m + 1)) : Int.log 2 x = m := by
  have hc : ((2 : ℕ) : ℚ) = (2 : ℚ) := by norm_num
  have hlo : m ≤ Int.log 2 x := by
    rw [← Int.zpow_le_iff_le_log (by norm_num) hx, hc]
    exact h1
  have hhi : Int.log 2 x < m + 1 := by
    rw [← Int.lt_zpow_iff_log_lt (by norm_num) hx, hc]
    exact h2
  omega

theorem x_lt_zpow_succ_log {x : ℚ} : x < (2 : ℚ) ^ (Int.log 2 x + 1) := by
  have hc : ((2 : ℕ) : ℚ) = (2 : ℚ) := by norm_num
  have := Int.lt_zpow_succ_log_self (b := 2) (by norm_num) x
  rwa [hc] at this

theorem zpow_log_le_x {x : ℚ} (hx : 0 < x) : (2 : ℚ) ^ (Int.log 2 x) ≤ x := by
  have hc : ((2 : ℕ) : ℚ) = (2 : ℚ) := by norm_num
  have := Int.zpow_log_le_self (b := 2) (by norm_num) hx
  rwa [hc] at this

/-- Upper bound: rounding never escapes the closed binade above. -/
theorem rne32_le_zpow_succ {x : ℚ} (hx : 0 < x) :
    rne32 x ≤ (2 : ℚ) ^ (Int.log 2 x + 1) := by
  rw [rne32, if_neg (not_le.mpr hx)]
  set E := Int.log 2 x with hE
  have hscaled : x * 2 ^ (23 - E) < (2 : ℚ) ^ (24 : ℤ) := by
    calc x * 2 ^ (23 - E) < (2 : ℚ) ^ (E + 1) * 2 ^ (23 - E) :=
          mul_lt_mul_of_pos_right x_lt_zpow_succ_log (by positivity)
    _ = (2 : ℚ) ^ (24 : ℤ) := by
          rw [← zpow_add₀ (two_ne_zero : (2:ℚ) ≠ 0)]; ring_nf
  have hfl : ⌊x * 2 ^ (23 - E)⌋ < (2 : ℤ) ^ 24 := by
    rw [Int.floor_lt]
    exact_mod_cast hscaled
  have hr : rneInt (x * 2 ^ (23 - E)) ≤ (2 : ℤ) ^ 24 := by
    have := rneInt_le_floor_add_one (x * 2 ^ (23 - E))
    omega
  have hrq : (rneInt (x * 2 ^ (23 - E)) : ℚ) ≤ (2 : ℚ) ^ (24 : ℤ) := by
    exact_mod_cast hr
  calc (rneInt (x * 2 ^ (23 - E)) : ℚ) * 2 ^ (E - 23)
      ≤ (2 : ℚ) ^ (24 : ℤ) * 2 ^ (E - 23) :=
        mul_le_mul_of_nonneg_right hrq (by positivity)
    _ = (2 : ℚ) ^ (E + 1) := by
        rw [← zpow_add₀ (two_ne_zero : (2:ℚ) ≠ 0)]; ring_nf

/-- Lower bound: rounding never leaves the closed binade below. -/
theorem zpow_log_le_rne32 {x : ℚ} (hx : 0 < x) :
    (2 : ℚ) ^ (Int.log 2 x) ≤ rne32 x := by
  rw [rne32, if_neg (not_le.mpr hx)]
  set E := Int.log 2 x with hE
  have hscaled : (2 : ℚ) ^ (23 : ℤ) ≤ x * 2 ^ (23 - E) := by
    calc (2 : ℚ) ^ (23 : ℤ) = (2 : ℚ) ^ E * 2 ^ (23 - E) := by
          rw [← zpow_add₀ (two_ne_zero : (2:ℚ) ≠ 0)]; ring_nf
    _ ≤ x * 2 ^ (23 - E) :=
          mul_le_mul_of_nonneg_right (zpow_log_le_x hx) (by positivity)
  have hfl : (2 : ℤ) ^ 23 ≤ ⌊x * 2 ^ (23 - E)⌋ := by
    rw [Int.le_floor]
    exact_mod_cast hscaled
  have hr : (2 : ℤ) ^ 23 ≤ rneInt (x * 2 ^ (23 - E)) := by
    have := rneInt_ge_floor (x * 2 ^ (23 - E))
    omega
  have hrq : (2 : ℚ) ^ (23 : ℤ) ≤ (rneInt (x * 2 ^ (23 - E)) : ℚ) := by
    exact_mod_cast hr
  calc (2 : ℚ) ^ E = (2 : ℚ) ^ (23 : ℤ) * 2 ^ (E - 23) := by
        rw [← zpow_add₀ (two_ne_zero : (2:ℚ) ≠ 0)]; ring_nf
    _ ≤ (rneInt (x * 2 ^ (23 - E)) : ℚ) * 2 ^ (E - 23) :=
        mul_le_mul_of_nonneg_right hrq (by positivity)

/-- Binary32 rounding is monotone. -/
theorem rne32_mono {x y : ℚ} (h : x ≤ y) : rne32 x ≤ rne32 y := by
  by_cases hx : x ≤ 0
  · rw [rne32, if_pos hx]
    exact rne32_nonneg y
  · push_neg at hx
    have hy : 0 < y := lt_of_lt_of_le hx h
    have hE : Int.log 2 x ≤ Int.log 2 y := Int.log_mono_right hx h
    rcases eq_or_lt_of_le hE with heq | hlt
    · rw [rne32, if_neg (not_le.mpr hx), rne32, if_neg (not_le.mpr hy), ← heq]
      have hs : x * 2 ^ (23 - Int.log 2 x) ≤ y * 2 ^ (23 - Int.log 2 x) :=
        mul_le_mul_of_nonneg_right h (by positivity)
      have hi := rneInt_mono hs
      have hc : (rneInt (x * 2 ^ (23 - Int.log 2 x)) : ℚ) ≤
          (rneInt (y * 2 ^ (23 - Int.log 2 x)) : ℚ) := by exact_mod_cast hi
      exact mul_le_mul_of_nonneg_right hc (by positivity)
    · have hA := rne32_le_zpow_succ hx
      have hC := zpow_log_le_rne32 hy
      have hB : (2 : ℚ) ^ (Int.log 2 x + 1) ≤ (2 : ℚ) ^ (Int.log 2 y) :=
        zpow_le_zpow_right₀ one_le_two (by omega)
      linarith

/-- A dyadic rational with a 24-bit mantissa is exactly representable:
rounding is the identity there. -/
theorem rne32_dyadic_exact (m : ℕ) (j : ℤ) (h1 : 1 ≤ m) (h2 : m < 2 ^ 24) :
    rne32 ((m : ℚ) * 2 ^ j) = (m : ℚ) * 2 ^ j := by
  have hm0 : (0 : ℚ) < (m : ℚ) := by exact_mod_cast h1
  have hx : (0 : ℚ) < (m : ℚ) * 2 ^ j := by positivity
  set Lm := Nat.log 2 m with hLm
  have hLm23 : Lm ≤ 23 := by
    have := Nat.log_lt_of_lt_pow (by omega : m ≠ 0) h2
    omega
  have hlo : (2 : ℚ) ^ ((Lm : ℤ) + j) ≤ (m : ℚ) * 2 ^ j := by
    have h := Nat.pow_log_le_self 2 (by omega : m ≠ 0)
    have hq : (2 : ℚ) ^ (Lm : ℤ) ≤ (m : ℚ) := by
      rw [zpow_natCast]
      exact_mod_cast h
    rw [zpow_add₀ (two_ne_zero : (2 : ℚ) ≠ 0)]
    exact mul_le_mul_of_nonneg_right hq (by positivity)
  have hhi : (m : ℚ) * 2 ^ j < (2 : ℚ) ^ ((Lm : ℤ) + j + 1) := by
    have h := Nat.lt_pow_succ_log_self (by norm_num : 1 < 2) m
    have hq : (m : ℚ) < (2 : ℚ) ^ ((Lm : ℤ) + 1) := by
      rw [show (Lm : ℤ) + 1 = ((Lm + 1 : ℕ) : ℤ) by push_cast; ring, zpow_natCast]
      exact_mod_cast h
    rw [show (Lm : ℤ) + j + 1 = ((Lm : ℤ) + 1) + j by ring,
      zpow_add₀ (two_ne_zero : (2 : ℚ) ≠ 0)]
    exact mul_lt_mul_of_pos_right hq (by positivity)
  have hE : Int.log 2 ((m : ℚ) * 2 ^ j) = (Lm : ℤ) + j := log2_eq_of_bounds hx hlo hhi
  rw [rne32, if_neg (not_le.mpr hx), hE]
  have hcastpow : (((m * 2 ^ (23 - Lm) : ℕ) : ℤ) : ℚ) =
      (m : ℚ) * 2 ^ ((23 - Lm : ℕ) : ℤ) := by
    push_cast [zpow_natCast]
    ring
  have hexp : ((23 - Lm : ℕ) : ℤ) = 23 - (Lm : ℤ) := by omega
  have hscaled : (m : ℚ) * 2 ^ j * 2 ^ (23 - ((Lm : ℤ) + j)) =
      (((m * 2 ^ (23 - Lm) : ℕ) : ℤ) : ℚ) := by
    rw [hcastpow, hexp, mul_assoc, ← zpow_add₀ (two_ne_zero : (2 : ℚ) ≠ 0)]
    congr 1
    ring
  rw [hscaled, rneInt_intCast, hcastpow, hexp, mul_assoc,
    ← zpow_add₀ (two_ne_zero : (2 : ℚ) ≠ 0)]
  congr 1
  ring

/-- Rounding is the identity on naturals below `2^24`. -/
theorem rne32_natCast_exact (m : ℕ) (h1 : 1 ≤ m) (h2 : m < 2 ^ 24) :
    rne32 (m : ℚ) = m := by
  have := rne32_dyadic_exact m 0 h1 h2
  simpa using this

/-- The executable round-to-nearest-even division agrees with the
proof-level `rneInt` on the exact quotient. -/
theorem rneDiv_eq_rneInt (p q : ℕ) (hq : 0 < q) :
    (rneDiv p q : ℤ) = rneInt ((p : ℚ) / q) := by
  have hq0 : ((q : ℕ) : ℚ) ≠ 0 := by
    exact_mod_cast (by omega : q ≠ 0)
  have hne : ((2 * q : ℕ) : ℤ) ≠ 0 := by
    exact_mod_cast (by omega : 2 * q ≠ 0)
  set w : ℕ := p / q with hw
  set r : ℕ := p % q with hr
  have hdm : q * w + r = p := Nat.div_add_mod p q
  have hdmz : (q : ℤ) * w + r = p := by exact_mod_cast hdm
  have hrlt : r < q := Nat.mod_lt p hq
  have hx : (p : ℚ) / q + 1 / 2 = (((2 * p + q : ℕ) : ℤ) : ℚ) / ((2 * q : ℕ) : ℚ) := by
    push_cast
    field_simp
    ring
  have hfloor : ⌊(p : ℚ) / q + 1 / 2⌋ = ((2 * p + q : ℕ) : ℤ) / ((2 * q : ℕ) : ℤ) := by
    rw [hx, Rat.floor_intCast_div_natCast]
  set K : ℤ := ((2 * p + q : ℕ) : ℤ) / ((2 * q : ℕ) : ℤ) with hK
  have h1 : ((2 * p + q : ℕ) : ℤ) = ((2 * r + q : ℕ) : ℤ) + (w : ℤ) * ((2 * q : ℕ) : ℤ) := by
    push_cast
    rw [← hdmz]
    ring
  have hKval : K = (w : ℤ) + (if q ≤ 2 * r then 1 else 0) := by
    rw [hK, h1, Int.add_mul_ediv_right _ _ hne]
    by_cases hc : q ≤ 2 * r
    · have h2 : ((2 * r + q : ℕ) : ℤ) = ((2 * r - q : ℕ) : ℤ) + 1 * ((2 * q : ℕ) : ℤ) := by
        push_cast [Nat.cast_sub hc]
        ring
      have h3 : ((2 * r - q : ℕ) : ℤ) / ((2 * q : ℕ) : ℤ) = 0 :=
        Int.ediv_eq_zero_of_lt (by exact_mod_cast Nat.zero_le _)
          (by exact_mod_cast (by omega : 2 * r - q < 2 * q))
      rw [h2, Int.add_mul_ediv_right _ _ hne, h3]
      simp [hc]
      ring
    · have h3 : ((2 * r + q : ℕ) : ℤ) / ((2 * q : ℕ) : ℤ) = 0 :=
        Int.ediv_eq_zero_of_lt (by exact_mod_cast Nat.zero_le _)
          (by exact_mod_cast (by omega : 2 * r + q < 2 * q))
      rw [h3]
      simp [hc]
  have htie : ((p : ℚ) / q + 1 / 2 = (K : ℚ)) ↔
      ((2 * p + q : ℕ) : ℤ) = K * ((2 * q : ℕ) : ℤ) := by
    rw [hx, div_eq_iff (by exact_mod_cast (by omega : 2 * q ≠ 0) : ((2 * q : ℕ) : ℚ) ≠ 0)]
    constructor
    · intro h
      exact_mod_cast h
    · intro h
      exact_mod_cast congrArg (fun z : ℤ => (z : ℚ)) h
  rw [rneInt]
  rw [hfloor]
  rcases Nat.lt_trichotomy (2 * r) q with hlt | heqq | hgt
  · -- below half: round down to w, no tie
    have hKw : K = (w : ℤ) := by
      rw [hKval, if_neg (by omega : ¬ q ≤ 2 * r)]
      ring
    have hnotie : ¬(((p : ℚ) / q + 1 / 2 = (K : ℚ)) ∧ K % 2 = 1) := by
      rintro ⟨ht, -⟩
      have h4 := htie.mp ht
      rw [hKw, h1] at h4
      have h5 : ((2 * r + q : ℕ) : ℤ) = 0 := by linarith
      have h6 : (2 * r + q : ℕ) = 0 := by exact_mod_cast h5
      omega
    have hdv : rneDiv p q = w := by
      simp only [rneDiv, ← hw, ← hr]
      rw [if_neg (by omega), if_pos hlt]
    rw [if_neg hnotie, hdv, hKw]
  · -- exact tie: round to even
    have hKw : K = (w : ℤ) + 1 := by
      rw [hKval, if_pos (by omega : q ≤ 2 * r)]
    have hteq : (p : ℚ) / q + 1 / 2 = (K : ℚ) := by
      rw [htie, hKw, h1]
      have h4 : ((2 * r + q : ℕ) : ℤ) = ((2 * q : ℕ) : ℤ) := by
        exact_mod_cast (by omega : 2 * r + q = 2 * q)
      rw [h4]
      ring
    by_cases hwe : w % 2 = 0
    · have hdv : rneDiv p q = w := by
        simp only [rneDiv, ← hw, ← hr]
        rw [if_neg (by omega), if_neg (by omega), if_pos hwe]
      rw [if_pos ⟨hteq, by omega⟩, hdv]
      omega
    · have hdv : rneDiv p q = w + 1 := by
        simp only [rneDiv, ← hw, ← hr]
        rw [if_neg (by omega), if_neg (by omega), if_neg hwe]
      rw [if_neg (fun hcon => by have := hcon.2; omega), hdv]
      push_cast
      omega
  · -- above half: round up to w + 1, no tie
    have hKw : K = (w : ℤ) + 1 := by
      rw [hKval, if_pos (by omega : q ≤ 2 * r)]
    have hnotie : ¬(((p : ℚ) / q + 1 / 2 = (K : ℚ)) ∧ K % 2 = 1) := by
      rintro ⟨ht, -⟩
      have h4 := htie.mp ht
      rw [hKw, h1] at h4
      have h5 : ((2 * r + q : ℕ) : ℤ) = ((2 * q : ℕ) : ℤ) := by linarith
      have h6 : (2 * r + q : ℕ) = 2 * q := by exact_mod_cast h5
      omega
    have hdv : rneDiv p q = w + 1 := by
      simp only [rneDiv, ← hw, ← hr]
      rw [if_pos hgt]
    rw [if_neg hnotie, hdv, hKw]
    push_cast
    ring

/-- The fuel-bounded logarithm is `⌊log₂⌋` whenever the fuel covers the
bit length of the argument. -/
theorem lg2F_spec : ∀ (fuel n : ℕ), n < 2 ^ fuel → 1 ≤ n →
    2 ^ lg2F fuel n ≤ n ∧ n < 2 ^ (lg2F fuel n + 1) := by
  intro fuel
  induction fuel with
  | zero =>
    intro n h1 h2
    simp at h1
    omega
  | succ f ih =>
    intro n h1 h2
    by_cases hn : n ≤ 1
    · have hone : n = 1 := by omega
      subst hone
      simp [lg2F]
    · have hhalf : n / 2 < 2 ^ f := by
        have hp : (2 : ℕ) ^ (f + 1) = 2 * 2 ^ f := by ring
        omega
      have hrec := ih (n / 2) hhalf (by omega)
      have hval : lg2F (f + 1) n = lg2F f (n / 2) + 1 := by
        simp [lg2F, hn]
      rw [hval]
      have hp1 : (2 : ℕ) ^ (lg2F f (n / 2) + 1) = 2 * 2 ^ lg2F f (n / 2) := by ring
      have hp2 : (2 : ℕ) ^ (lg2F f (n / 2) + 1 + 1) = 2 * 2 ^ (lg2F f (n / 2) + 1) := by
        ring
      omega

/-- `lg2` is `⌊log₂⌋` below `2^64`. -/
theorem lg2_spec (n : ℕ) (h1 : 1 ≤ n) (h2 : n < 2 ^ 64) :
    2 ^ lg2 n ≤ n ∧ n < 2 ^ (lg2 n + 1) :=
  lg2F_spec 64 n h2 h1

/-- The `Int.log` of a positive natural cast into ℚ is its `lg2`
(below `2^64`). -/
theorem log2_natCast_eq_lg2 (n : ℕ) (h1 : 1 ≤ n) (h2 : n < 2 ^ 64) :
    Int.log 2 (n : ℚ) = (lg2 n : ℤ) := by
  obtain ⟨hlo, hhi⟩ := lg2_spec n h1 h2
  apply log2_eq_of_bounds (by exact_mod_cast h1)
  · rw [show ((lg2 n : ℕ) : ℤ) = ((lg2 n : ℕ) : ℤ) from rfl, zpow_natCast]
    exact_mod_cast hlo
  · rw [show ((lg2 n : ℤ) + 1) = ((lg2 n + 1 : ℕ) : ℤ) by push_cast; ring, zpow_natCast]
    exact_mod_cast hhi

/-- The executable `flNat` implements binary32 rounding of a natural. -/
theorem flNat_eq (n : ℕ) (h : n < 2 ^ 64) : (flNat n : ℚ) = rne32 n := by
  rcases Nat.eq_zero_or_pos n with rfl | hn
  · have h0 : lg2 0 = 0 := rfl
    simp [flNat, h0, rne32]
  · obtain ⟨hlo, hhi⟩ := lg2_spec n hn h
    set L := lg2 n with hL
    by_cases hL23 : L ≤ 23
    · have hfl : flNat n = n := by
        simp only [flNat, ← hL]
        rw [if_pos hL23]
      have h24 : n < 2 ^ 24 := by
        calc n < 2 ^ (L + 1) := hhi
        _ ≤ 2 ^ 24 := Nat.pow_le_pow_right (by norm_num) (by omega)
      rw [hfl, rne32_natCast_exact n hn h24]
    · push_neg at hL23
      have hfl : flNat n = rneDiv n (2 ^ (L - 23)) * 2 ^ (L - 23) := by
        simp only [flNat, ← hL]
        rw [if_neg (by omega)]
      have hE : Int.log 2 (n : ℚ) = (L : ℤ) := log2_natCast_eq_lg2 n hn h
      have hq0 : (0 : ℕ) < 2 ^ (L - 23) := Nat.pos_pow_of_pos _ (by norm_num)
      have hsc : (n : ℚ) * 2 ^ (23 - (L : ℤ)) = (n : ℚ) / ((2 ^ (L - 23) : ℕ) : ℚ) := by
        rw [div_eq_mul_inv]
        congr 1
        rw [show ((2 ^ (L - 23) : ℕ) : ℚ) = (2 : ℚ) ^ ((L - 23 : ℕ) : ℤ) by
          rw [zpow_natCast]; push_cast; ring]
        rw [← zpow_neg]
        congr 1
        omega
      rw [hfl, rne32, if_neg (not_le.mpr (by exact_mod_cast hn)), hE, hsc,
        ← rneDiv_eq_rneInt n (2 ^ (L - 23)) hq0]
      push_cast
      rw [← zpow_natCast (2 : ℚ) (L - 23), show ((L - 23 : ℕ) : ℤ) = (L : ℤ) - 23 by omega]

/-- `divExp a b` is the binade of `a / b`: `b ≤ a * 2 ^ s < 2 * b`. -/
theorem divExp_spec (a b : ℕ) (h1 : 1 ≤ a) (h2 : a ≤ b) (h3 : b < 2 ^ 64) :
    b ≤ a * 2 ^ divExp a b ∧ a * 2 ^ divExp a b < 2 * b := by
  obtain ⟨halo, hahi⟩ := lg2_spec a h1 (by omega)
  obtain ⟨hblo, hbhi⟩ := lg2_spec b (by omega) h3
  set la := lg2 a with hla
  set lb := lg2 b with hlb
  have hlab : la ≤ lb := by
    have h5 : (2 : ℕ) ^ la < 2 ^ (lb + 1) := lt_of_le_of_lt (le_trans halo h2) hbhi
    have := (pow_lt_pow_iff_right₀ (by norm_num : (1 : ℕ) < 2)).mp h5
    omega
  have hupper : ∀ s : ℕ, la + 1 + s = lb + 1 → a * 2 ^ s < 2 * b := by
    intro s hs
    calc a * 2 ^ s < 2 ^ (la + 1) * 2 ^ s :=
          (Nat.mul_lt_mul_right (Nat.pos_pow_of_pos _ (by norm_num))).mpr hahi
    _ = 2 ^ (la + 1 + s) := by rw [← pow_add]
    _ = 2 * 2 ^ lb := by rw [hs]; ring
    _ ≤ 2 * b := by omega
  rw [divExp, ← hla, ← hlb]
  by_cases hc : b ≤ a * 2 ^ (lb - la)
  · rw [if_pos hc]
    exact ⟨hc, hupper _ (by omega)⟩
  · rw [if_neg hc]
    push_neg at hc
    constructor
    · have hbb : b < a * 2 ^ (lb - la + 1) := by
        calc b < 2 ^ (lb + 1) := hbhi
        _ = 2 ^ la * 2 ^ (lb - la + 1) := by rw [← pow_add]; congr 1; omega
        _ ≤ a * 2 ^ (lb - la + 1) := Nat.mul_le_mul_right _ halo
      exact le_of_lt hbb
    · calc a * 2 ^ (lb - la + 1) = 2 * (a * 2 ^ (lb - la)) := by ring
      _ < 2 * b := by omega

/-- The executable `flDiv` implements binary32 division of naturals
`a ≤ b` (as the dyadic value `p / 2 ^ k`). -/
theorem flDiv_eq (a b : ℕ) (h2 : a ≤ b) (hb : 1 ≤ b) (h3 : b < 2 ^ 64) :
    (((flDiv a b).1 : ℕ) : ℚ) / 2 ^ (flDiv a b).2 = rne32 ((a : ℚ) / b) := by
  have hbq : (0 : ℚ) < (b : ℚ) := by exact_mod_cast hb
  rcases Nat.eq_zero_or_pos a with rfl | ha
  · simp [flDiv, rne32]
  · have hspec := divExp_spec a b ha h2 h3
    set s := divExp a b with hs
    have hflDiv : flDiv a b = (rneDiv (a * 2 ^ (23 + s)) b, 23 + s) := by
      rw [flDiv, if_neg (by omega), ← hs]
    have hx : (0 : ℚ) < (a : ℚ) / b := by positivity
    have hlow : (2 : ℚ) ^ (-(s : ℤ)) ≤ (a : ℚ) / b := by
      rw [zpow_neg, inv_eq_one_div, div_le_div_iff₀ (by positivity) hbq,
        zpow_natCast]
      calc (1 : ℚ) * b = ((b : ℕ) : ℚ) := by ring
      _ ≤ ((a * 2 ^ s : ℕ) : ℚ) := by exact_mod_cast hspec.1
      _ = (a : ℚ) * 2 ^ s := by push_cast; ring
    have hhigh : (a : ℚ) / b < (2 : ℚ) ^ (-(s : ℤ) + 1) := by
      have hrw : (2 : ℚ) ^ (-(s : ℤ) + 1) = 2 / 2 ^ (s : ℤ) := by
        rw [zpow_add₀ (two_ne_zero : (2 : ℚ) ≠ 0), zpow_neg, zpow_one]
        ring
      rw [hrw, div_lt_div_iff₀ hbq (by positivity), zpow_natCast]
      calc (a : ℚ) * 2 ^ s = ((a * 2 ^ s : ℕ) : ℚ) := by push_cast; ring
      _ < ((2 * b : ℕ) : ℚ) := by exact_mod_cast hspec.2
      _ = 2 * ↑b := by push_cast; ring
    have hE : Int.log 2 ((a : ℚ) / b) = -(s : ℤ) := log2_eq_of_bounds hx hlow hhigh
    have hsc : (a : ℚ) / b * 2 ^ (23 - -(s : ℤ)) = ((a * 2 ^ (23 + s) : ℕ) : ℚ) / b := by
      rw [show (23 : ℤ) - -(s : ℤ) = ((23 + s : ℕ) : ℤ) by push_cast; ring,
        zpow_natCast]
      push_cast
      ring
    rw [hflDiv, rne32, if_neg (not_le.mpr hx), hE, hsc,
      ← rneDiv_eq_rneInt (a * 2 ^ (23 + s)) b hb]
    rw [show -(s : ℤ) - 23 = -(((23 + s : ℕ) : ℤ)) by push_cast; ring, zpow_neg,
      zpow_natCast]
    push_cast
    ring

/-- The executable `truncMulFl` implements `(int)(c * v)` where `v = p / 2^k`
is a binary32 value and `c` a small exact constant: the float product is
rounded, then truncated toward zero. -/
theorem truncMulFl_eq (c p k : ℕ) (hcp : c * p < 2 ^ 64) :
    ((truncMulFl c p k : ℕ) : ℤ) = ⌊rne32 ((((c * p : ℕ)) : ℚ) / 2 ^ k)⌋ := by
  rcases Nat.eq_zero_or_pos (c * p) with hzero | hpos
  · rw [hzero]
    have h0 : lg2 0 = 0 := rfl
    have ht : truncMulFl c p k = 0 := by
      rw [truncMulFl, hzero, h0]
      simp
    rw [ht]
    simp [rne32]
  · set P := c * p with hP
    obtain ⟨hlo, hhi⟩ := lg2_spec P hpos hcp
    set L := lg2 P with hL
    have hPq : (0 : ℚ) < (P : ℚ) := by exact_mod_cast hpos
    have h2k : (0 : ℚ) < (2 : ℚ) ^ k := by positivity
    have hx : (0 : ℚ) < (P : ℚ) / 2 ^ k := by positivity
    by_cases hL23 : L ≤ 23
    · -- exact product
      have ht : truncMulFl c p k = P / 2 ^ k := by
        rw [truncMulFl, ← hP, ← hL, if_pos hL23]
      have h24 : P < 2 ^ 24 := by
        calc P < 2 ^ (L + 1) := hhi
        _ ≤ 2 ^ 24 := Nat.pow_le_pow_right (by norm_num) (by omega)
      have hdy : ((P : ℚ)) / 2 ^ k = (P : ℚ) * 2 ^ (-(k : ℤ)) := by
        rw [zpow_neg, zpow_natCast]
        ring
      rw [ht, hdy, rne32_dyadic_exact P (-(k : ℤ)) hpos h24, ← hdy]
      rw [show ((P : ℚ)) / 2 ^ k = (((P : ℕ) : ℤ) : ℚ) / (((2 ^ k : ℕ)) : ℚ) by
        push_cast; ring]
      rw [Rat.floor_intCast_div_natCast]
      exact Int.natCast_div _ _
    · -- rounded product
      push_neg at hL23
      have ht : truncMulFl c p k = rneDiv P (2 ^ (L - 23)) * 2 ^ (L - 23) / 2 ^ k := by
        rw [truncMulFl, ← hP, ← hL, if_neg (by omega)]
      have hq0 : (0 : ℕ) < 2 ^ (L - 23) := Nat.pos_pow_of_pos _ (by norm_num)
      have hlowq : (2 : ℚ) ^ ((L : ℤ) - k) ≤ (P : ℚ) / 2 ^ k := by
        rw [le_div_iff₀ h2k, show (L : ℤ) - k = (L : ℤ) + -(k : ℤ) by ring,
          zpow_add₀ (two_ne_zero : (2 : ℚ) ≠ 0), zpow_neg, zpow_natCast, zpow_natCast]
        calc (2 : ℚ) ^ (L : ℕ) * ((2 : ℚ) ^ (k : ℕ))⁻¹ * 2 ^ (k : ℕ)
            = (2 : ℚ) ^ (L : ℕ) := by field_simp
        _ ≤ (P : ℚ) := by exact_mod_cast hlo
      have hhighq : (P : ℚ) / 2 ^ k < (2 : ℚ) ^ (((L : ℤ) - k) + 1) := by
        rw [div_lt_iff₀ h2k, show ((L : ℤ) - k) + 1 = ((L : ℤ) + 1) + -(k : ℤ) by ring,
          zpow_add₀ (two_ne_zero : (2 : ℚ) ≠ 0), zpow_neg, zpow_natCast]
        rw [show ((L : ℤ) + 1) = ((L + 1 : ℕ) : ℤ) by push_cast; ring, zpow_natCast]
        calc (P : ℚ) < (2 : ℚ) ^ (L + 1 : ℕ) := by exact_mod_cast hhi
        _ = (2 : ℚ) ^ (L + 1 : ℕ) * (((2 : ℚ) ^ (k : ℕ))⁻¹ * 2 ^ (k : ℕ)) := by
              field_simp
        _ = (2 : ℚ) ^ (L + 1 : ℕ) * ((2 : ℚ) ^ (k : ℕ))⁻¹ * 2 ^ (k : ℕ) := by ring
      have hE : Int.log 2 ((P : ℚ) / 2 ^ k) = (L : ℤ) - k :=
        log2_eq_of_bounds hx hlowq hhighq
      have hsc : (P : ℚ) / 2 ^ k * 2 ^ (23 - ((L : ℤ) - k)) =
          (P : ℚ) / ((2 ^ (L - 23) : ℕ) : ℚ) := by
        rw [show (23 : ℤ) - ((L : ℤ) - k) = -(((L - 23 : ℕ) : ℤ)) + (k : ℤ) by omega,
          zpow_add₀ (two_ne_zero : (2 : ℚ) ≠ 0), zpow_neg, zpow_natCast, zpow_natCast]
        rw [show ((2 ^ (L - 23) : ℕ) : ℚ) = (2 : ℚ) ^ (L - 23 : ℕ) by push_cast; ring]
        field_simp
      rw [ht, rne32, if_neg (not_le.mpr hx), hE, hsc,
        ← rneDiv_eq_rneInt P (2 ^ (L - 23)) hq0]
      set R := rneDiv P (2 ^ (L - 23)) with hR
      have hval : (((R : ℕ) : ℤ) : ℚ) * 2 ^ (((L : ℤ) - k) - 23) =
          (((R * 2 ^ (L - 23) : ℕ) : ℤ) : ℚ) / (((2 ^ k : ℕ)) : ℚ) := by
        rw [show ((L : ℤ) - k) - 23 = ((L - 23 : ℕ) : ℤ) + -(k : ℤ) by omega,
          zpow_add₀ (two_ne_zero : (2 : ℚ) ≠ 0), zpow_neg, zpow_natCast, zpow_natCast]
        push_cast
        rw [div_eq_mul_inv]
        ring
      rw [hval, Rat.floor_intCast_div_natCast]
      exact Int.natCast_div _ _

/-- `rne32` is the identity at 1. -/
theorem rne32_one : rne32 (1 : ℚ) = 1 := by
  have := rne32_natCast_exact 1 (by norm_num) (by norm_num)
  simpa using this

/-- `flNat` of a `long` stays below `2^64`. -/
theorem flNat_le_two_pow_63 (d : ℕ) (hd : d < 2 ^ 63) : flNat d ≤ 2 ^ 63 := by
  have hb := flNat_eq d (by omega)
  have h63 : rne32 ((2 ^ 63 : ℕ) : ℚ) = ((2 ^ 63 : ℕ) : ℚ) := by
    have h := rne32_dyadic_exact 1 63 (by norm_num) (by norm_num)
    have hc : ((2 ^ 63 : ℕ) : ℚ) = (1 : ℚ) * 2 ^ (63 : ℤ) := by
      push_cast
      rw [show (2 : ℚ) ^ (63 : ℤ) = (2 : ℚ) ^ (63 : ℕ) by rw [← zpow_natCast]; norm_num]
      ring
    rw [hc]
    simpa using h
  have hmono := rne32_mono (show ((d : ℚ)) ≤ ((2 ^ 63 : ℕ) : ℚ) by
    exact_mod_cast le_of_lt hd)
  rw [← hb, h63] at hmono
  exact_mod_cast hmono

/-- `flNat` of a positive natural is positive. -/
theorem flNat_pos (d : ℕ) (h1 : 1 ≤ d) (hd : d < 2 ^ 64) : 1 ≤ flNat d := by
  have hb := flNat_eq d hd
  have hmono := rne32_mono (show ((1 : ℕ) : ℚ) ≤ ((d : ℕ) : ℚ) by exact_mod_cast h1)
  rw [← hb] at hmono
  have h1' : rne32 ((1 : ℕ) : ℚ) = 1 := by
    simpa using rne32_one
  rw [h1'] at hmono
  exact_mod_cast hmono

/-- `flNat` is monotone. -/
theorem flNat_mono (e d : ℕ) (h : e ≤ d) (hd : d < 2 ^ 64) : flNat e ≤ flNat d := by
  have hbe := flNat_eq e (by omega)
  have hbd := flNat_eq d hd
  have hmono := rne32_mono (show ((e : ℕ) : ℚ) ≤ ((d : ℕ) : ℚ) by exact_mod_cast h)
  rw [← hbe, ← hbd] at hmono
  exact_mod_cast hmono

/-- `rneDiv` exceeds the truncated quotient by at most one. -/
theorem rneDiv_le_div_add_one (p q : ℕ) : rneDiv p q ≤ p / q + 1 := by
  rw [rneDiv]
  split_ifs <;> omega

/-- The mantissa produced by `flDiv` is at most `2^24`. -/
theorem flDiv_fst_le (a b : ℕ) (h2 : a ≤ b) (hb : 1 ≤ b) (h3 : b < 2 ^ 64) :
    (flDiv a b).1 ≤ 2 ^ 24 := by
  rcases Nat.eq_zero_or_pos a with rfl | ha
  · simp [flDiv]
  · have hspec := divExp_spec a b ha h2 h3
    set s := divExp a b with hs
    have hflDiv : flDiv a b = (rneDiv (a * 2 ^ (23 + s)) b, 23 + s) := by
      rw [flDiv, if_neg (by omega), ← hs]
    rw [hflDiv]
    have hdivlt : a * 2 ^ (23 + s) / b < 2 ^ 24 := by
      rw [Nat.div_lt_iff_lt_mul (by omega)]
      calc a * 2 ^ (23 + s) = (a * 2 ^ s) * 2 ^ 23 := by ring
      _ < (2 * b) * 2 ^ 23 := by
          exact (Nat.mul_lt_mul_right (by norm_num)).mpr hspec.2
      _ = 2 ^ 24 * b := by ring
    have := rneDiv_le_div_add_one (a * 2 ^ (23 + s)) b
    omega

/-- `rne32 20 = 20`. -/
theorem rne32_twenty : rne32 (20 : ℚ) = 20 := by
  have h := rne32_natCast_exact 20 (by norm_num) (by norm_num)
  push_cast at h
  exact h

/-- `rne32 100 = 100`. -/
theorem rne32_hundred : rne32 (100 : ℚ) = 100 := by
  have h := rne32_natCast_exact 100 (by norm_num) (by norm_num)
  push_cast at h
  exact h

/-- `⌊rne32 (c * v)⌋ ≤ c` for `v ≤ 1` and exactly representable `c`. -/
theorem floor_rne32_mul_le (c : ℕ) (hc1 : 1 ≤ c) (hc2 : c < 2 ^ 24) {v : ℚ}
    (hv : v ≤ 1) : ⌊rne32 ((c : ℚ) * v)⌋ ≤ (c : ℤ) := by
  have h1 : (c : ℚ) * v ≤ (c : ℚ) := mul_le_of_le_one_right (by positivity) hv
  have h2 : rne32 ((c : ℚ) * v) ≤ rne32 (c : ℚ) := rne32_mono h1
  rw [rne32_natCast_exact c hc1 hc2] at h2
  calc ⌊rne32 ((c : ℚ) * v)⌋ ≤ ⌊((c : ℕ) : ℚ)⌋ := Int.floor_mono h2
  _ = (c : ℤ) := Int.floor_natCast c

/-- `⌊rne32 (c * v)⌋` is monotone in `v`. -/
theorem floor_rne32_mul_mono (c : ℕ) {v1 v2 : ℚ} (h : v1 ≤ v2) :
    ⌊rne32 ((c : ℚ) * v1)⌋ ≤ ⌊rne32 ((c : ℚ) * v2)⌋ :=
  Int.floor_mono (rne32_mono (mul_le_mul_of_nonneg_left h (by positivity)))

end F32

/-! ## `print_bar` value lemmas -/

/-- `part_001`'s `percentage` arithmetic is `part_000`'s. -/
theorem Color.percentage_eq_plain : Color.percentage = Plain.percentage := rfl

/-- `part_001`'s `filled_width` arithmetic is `part_000`'s. -/
theorem Color.filled_width_eq_plain : Color.filled_width = Plain.filled_width := rfl

/-- `part_001`'s printed percentage arithmetic is `part_000`'s. -/
theorem Color.percentPrinted_eq_plain : Color.percentPrinted = Plain.percentPrinted := rfl

/-- `part_001`'s bar cells are `part_000`'s. -/
theorem Color.barCells_eq_plain : Color.barCells = Plain.barCells := rfl

/-- For a positive duration, the dyadic value of `percentage` is the rounded
quotient of the two converted floats. -/
theorem Plain.percentage_val (e d : ℕ) (he : e ≤ d) (h1 : 1 ≤ d) (hd : d < 2 ^ 63) :
    (((Plain.percentage e d).1 : ℕ) : ℚ) / 2 ^ (Plain.percentage e d).2 =
      F32.rne32 ((F32.flNat e : ℚ) / (F32.flNat d : ℚ)) := by
  rw [Plain.percentage, if_neg (by omega)]
  exact F32.flDiv_eq _ _ (F32.flNat_mono e d he (by omega))
    (F32.flNat_pos d h1 (by omega))
    (by have := F32.flNat_le_two_pow_63 d hd; omega)

/-- The rounded quotient is at most 1 when `elapsed ≤ total`. -/
theorem Plain.percentage_val_le_one (e d : ℕ) (he : e ≤ d) (h1 : 1 ≤ d)
    (hd : d < 2 ^ 63) :
    F32.rne32 ((F32.flNat e : ℚ) / (F32.flNat d : ℚ)) ≤ 1 := by
  have hpos : (0 : ℚ) < (F32.flNat d : ℚ) := by
    exact_mod_cast F32.flNat_pos d h1 (by omega)
  have hle : (F32.flNat e : ℚ) / (F32.flNat d : ℚ) ≤ 1 := by
    rw [div_le_one hpos]
    exact_mod_cast F32.flNat_mono e d he (by omega)
  calc F32.rne32 ((F32.flNat e : ℚ) / (F32.flNat d : ℚ)) ≤ F32.rne32 1 :=
        F32.rne32_mono hle
  _ = 1 := F32.rne32_one

/-- The percentage mantissa is at most `2^24`. -/
theorem Plain.percentage_fst_le (e d : ℕ) (he : e ≤ d) (hd : d < 2 ^ 63) :
    (Plain.percentage e d).1 ≤ 2 ^ 24 := by
  rw [Plain.percentage]
  split
  · norm_num
  · rename_i h0
    exact F32.flDiv_fst_le _ _ (F32.flNat_mono e d he (by omega))
      (F32.flNat_pos d (by omega) (by omega))
      (by have := F32.flNat_le_two_pow_63 d hd; omega)

/-- `filled_width` as a floor of the rounded float product (positive
duration). -/
theorem Plain.filled_floor (e d : ℕ) (he : e ≤ d) (h1 : 1 ≤ d) (hd : d < 2 ^ 63) :
    ((Plain.filled_width e d : ℕ) : ℤ) =
      ⌊F32.rne32 ((20 : ℚ) *
        F32.rne32 ((F32.flNat e : ℚ) / (F32.flNat d : ℚ)))⌋ := by
  have hb : 20 * (Plain.percentage e d).1 < 2 ^ 64 := by
    have := Plain.percentage_fst_le e d he hd
    omega
  have hml : (((20 * (Plain.percentage e d).1 : ℕ)) : ℚ) / 2 ^ (Plain.percentage e d).2 =
      (20 : ℚ) * ((((Plain.percentage e d).1 : ℕ) : ℚ) / 2 ^ (Plain.percentage e d).2) := by
    push_cast
    ring
  have ht := F32.truncMulFl_eq 20 (Plain.percentage e d).1 (Plain.percentage e d).2 hb
  rw [hml, Plain.percentage_val e d he h1 hd] at ht
  rw [show Plain.filled_width e d =
    F32.truncMulFl 20 (Plain.percentage e d).1 (Plain.percentage e d).2 from rfl]
  exact ht

/-- The printed percentage as a floor of the rounded float product (positive
duration). -/
theorem Plain.percent_floor (e d : ℕ) (he : e ≤ d) (h1 : 1 ≤ d) (hd : d < 2 ^ 63) :
    ((Plain.percentPrinted e d : ℕ) : ℤ) =
      ⌊F32.rne32 ((100 : ℚ) *
        F32.rne32 ((F32.flNat e : ℚ) / (F32.flNat d : ℚ)))⌋ := by
  have hb : 100 * (Plain.percentage e d).1 < 2 ^ 64 := by
    have := Plain.percentage_fst_le e d he hd
    omega
  have hml : (((100 * (Plain.percentage e d).1 : ℕ)) : ℚ) / 2 ^ (Plain.percentage e d).2 =
      (100 : ℚ) * ((((Plain.percentage e d).1 : ℕ) : ℚ) / 2 ^ (Plain.percentage e d).2) := by
    push_cast
    ring
  have ht := F32.truncMulFl_eq 100 (Plain.percentage e d).1 (Plain.percentage e d).2 hb
  rw [hml, Plain.percentage_val e d he h1 hd] at ht
  rw [show Plain.percentPrinted e d =
    F32.truncMulFl 100 (Plain.percentage e d).1 (Plain.percentage e d).2 from rfl]
  exact ht

/-- At most 20 cells are ever filled (for reachable `e ≤ d`). -/
theorem Plain.filled_width_le (e d : ℕ) (he : e ≤ d) (hd : d < 2 ^ 63) :
    Plain.filled_width e d ≤ 20 := by
  rcases Nat.eq_zero_or_pos d with rfl | h1
  · have he0 : e = 0 := by omega
    subst he0
    decide
  · have hfl := Plain.filled_floor e d he h1 hd
    have hv := Plain.percentage_val_le_one e d he h1 hd
    have hle := F32.floor_rne32_mul_le 20 (by norm_num) (by norm_num) hv
    push_cast at hle
    rw [← hfl] at hle
    exact_mod_cast hle

/-- The printed percentage is at most 100 (for reachable `e ≤ d`). -/
theorem Plain.percentPrinted_le (e d : ℕ) (he : e ≤ d) (hd : d < 2 ^ 63) :
    Plain.percentPrinted e d ≤ 100 := by
  rcases Nat.eq_zero_or_pos d with rfl | h1
  · have he0 : e = 0 := by omega
    subst he0
    decide
  · have hfl := Plain.percent_floor e d he h1 hd
    have hv := Plain.percentage_val_le_one e d he h1 hd
    have hle := F32.floor_rne32_mul_le 100 (by norm_num) (by norm_num) hv
    push_cast at hle
    rw [← hfl] at hle
    exact_mod_cast hle

/-- Filled cells are monotone in `elapsed`. -/
theorem Plain.filled_width_mono (e1 e2 d : ℕ) (h12 : e1 ≤ e2) (h2d : e2 ≤ d)
    (hd : d < 2 ^ 63) : Plain.filled_width e1 d ≤ Plain.filled_width e2 d := by
  rcases Nat.eq_zero_or_pos d with rfl | h1
  · have : e1 = 0 ∧ e2 = 0 := by omega
    rw [this.1, this.2]
  · have hfl1 := Plain.filled_floor e1 d (by omega) h1 hd
    have hfl2 := Plain.filled_floor e2 d h2d h1 hd
    have hpos : (0 : ℚ) < (F32.flNat d : ℚ) := by
      exact_mod_cast F32.flNat_pos d h1 (by omega)
    have hnum : (F32.flNat e1 : ℚ) ≤ (F32.flNat e2 : ℚ) := by
      exact_mod_cast F32.flNat_mono e1 e2 h12 (by omega)
    have hvle : (F32.flNat e1 : ℚ) / (F32.flNat d : ℚ) ≤
        (F32.flNat e2 : ℚ) / (F32.flNat d : ℚ) :=
      (div_le_div_iff_of_pos_right hpos).mpr hnum
    have hvv := F32.rne32_mono hvle
    have hmono := F32.floor_rne32_mul_mono 20 hvv
    push_cast at hmono
    rw [← hfl1, ← hfl2] at hmono
    exact_mod_cast hmono

/-- The bar is full when `elapsed = total`. -/
theorem Plain.filled_width_self (d : ℕ) (hd : d < 2 ^ 63) :
    Plain.filled_width d d = 20 := by
  rcases Nat.eq_zero_or_pos d with rfl | h1
  · decide
  · have hfl := Plain.filled_floor d d (le_refl d) h1 hd
    have hpos : (F32.flNat d : ℚ) ≠ 0 := by
      have := F32.flNat_pos d h1 (by omega)
      exact_mod_cast (by omega : F32.flNat d ≠ 0)
    rw [div_self hpos, F32.rne32_one, mul_one, F32.rne32_twenty] at hfl
    have : ((Plain.filled_width d d : ℕ) : ℤ) = 20 := by
      rw [hfl, show (20 : ℚ) = ((20 : ℤ) : ℚ) by norm_num, Int.floor_intCast]
    exact_mod_cast this

/-- Number of filled cells among 20. -/
theorem count_range_lt (F : ℕ) (h : F ≤ 20) :
    (((List.range 20).map (fun i => decide (i < F))).count true) = F := by
  interval_cases F <;> decide

/-- The number of `'#'` cells printed equals `filled_width`. -/
theorem Plain.barCells_count (e d : ℕ) (h : Plain.filled_width e d ≤ 20) :
    (Plain.barCells e d).count true = Plain.filled_width e d := by
  rw [Plain.barCells]
  exact count_range_lt _ h

/-- Counterexample to C4 as stated: at `elapsed = 2`, `total = 3` the code
prints 66% (`float` truncation) while `round(100·2/3) = 67`; and at
`elapsed = 2236963`, `total = 44739261` the code fills 1 cell while
`⌊20·e/d⌋ = 0` (the float quotient `fl(e)/fl(d)` is exactly `1/20`, which
rounds up, and `0.05f · 20` rounds to exactly `1.0`). -/
theorem C4_counterexample :
    Plain.percentPrinted 2 3 = 66 ∧
    round ((100 * (2 : ℚ)) / 3) = 67 ∧
    Plain.filled_width 2236963 44739261 = 1 ∧
    ((20 * 2236963) / 44739261 : ℕ) = 0 ∧
    Color.percentPrinted 2 3 = 66 ∧
    Color.filled_width 2236963 44739261 = 1 := by
  refine ⟨by decide, ?_, by decide, by decide, by decide, by decide⟩
  rw [round_eq, show (100 * (2 : ℚ)) / 3 + 1 / 2 = (((403 : ℤ)) : ℚ) / ((6 : ℕ) : ℚ) by
    norm_num, Rat.floor_intCast_div_natCast]
  decide

/-- C4 amended: the bar has fixed width 20; `total = 0` is treated as 100%
(all cells filled, 100 printed); the filled-cell count is the truncation of
the binary32 product `percentage · 20` — not always `⌊20·e/d⌋` — and lies
in `[0, 20]`, with the printed `'#'` count equal to it; the printed
percentage is the truncation (not rounding) of the binary32 product
`percentage · 100` and lies in `[0, 100]`.  In both bar variants. -/
theorem C4_amended (e d : ℕ) (he : e ≤ d) (hd : d < 2 ^ 63) :
    (Plain.barCells e d).length = 20 ∧
    Plain.filled_width e d ≤ 20 ∧
    Plain.percentPrinted e d ≤ 100 ∧
    (Plain.barCells e d).count true = Plain.filled_width e d ∧
    (d = 0 → Plain.filled_width e d = 20 ∧ Plain.percentPrinted e d = 100) ∧
    (Color.barCells e d).length = 20 ∧
    Color.filled_width e d ≤ 20 ∧
    Color.percentPrinted e d ≤ 100 ∧
    (Color.barCells e d).count true = Color.filled_width e d := by
  have hlen : (Plain.barCells e d).length = 20 := by
    simp [Plain.barCells, Plain.BAR_WIDTH]
  have hf := Plain.filled_width_le e d he hd
  have hp := Plain.percentPrinted_le e d he hd
  have hcount := Plain.barCells_count e d hf
  have hzero : d = 0 → Plain.filled_width e d = 20 ∧ Plain.percentPrinted e d = 100 := by
    rintro rfl
    have he0 : e = 0 := by omega
    subst he0
    exact ⟨by decide, by decide⟩
  refine ⟨hlen, hf, hp, hcount, hzero, ?_, ?_, ?_, ?_⟩
  · rw [Color.barCells_eq_plain]
    exact hlen
  · rw [Color.filled_width_eq_plain]
    exact hf
  · rw [Color.percentPrinted_eq_plain]
    exact hp
  · rw [Color.barCells_eq_plain, Color.filled_width_eq_plain]
    exact hcount

/-- Witness for `C4_amended` at `e = 1`, `d = 3`. -/
theorem C4_amended_witness :
    (Plain.barCells 1 3).length = 20 ∧
    Plain.filled_width 1 3 ≤ 20 ∧
    Plain.percentPrinted 1 3 ≤ 100 ∧
    (Plain.barCells 1 3).count true = Plain.filled_width 1 3 ∧
    ((3 : ℕ) = 0 → Plain.filled_width 1 3 = 20 ∧ Plain.percentPrinted 1 3 = 100) ∧
    (Color.barCells 1 3).length = 20 ∧
    Color.filled_width 1 3 ≤ 20 ∧
    Color.percentPrinted 1 3 ≤ 100 ∧
    (Color.barCells 1 3).count true = Color.filled_width 1 3 :=
  C4_amended 1 3 (by decide) (by norm_num)

/-- Counterexample to C8 as stated ("equals 20 *exactly* when
`elapsed = duration`"): at `elapsed = 2^24`, `total = 2^24 + 1` both values
convert to the same `float` (`16777217` rounds to nearest even), the
quotient is exactly 1, and the bar is rendered full although
`elapsed ≠ total`. -/
theorem C8_counterexample :
    Plain.filled_width 16777216 16777217 = 20 ∧
    (16777216 : ℕ) < 16777217 ∧
    Color.filled_width 16777216 16777217 = 20 := by
  refine ⟨by decide, by decide, by decide⟩

/-- C8 amended: for a fixed duration the filled-cell count is monotonically
non-decreasing in `elapsed`, and equals the full width 20 whenever
`elapsed = duration` (float rounding can also fill the bar for some
`elapsed < duration`).  In both bar variants. -/
theorem C8_amended (e1 e2 d : ℕ) (h12 : e1 ≤ e2) (h2d : e2 ≤ d)
    (hd : d < 2 ^ 63) :
    Plain.filled_width e1 d ≤ Plain.filled_width e2 d ∧
    Plain.filled_width d d = 20 ∧
    Color.filled_width e1 d ≤ Color.filled_width e2 d ∧
    Color.filled_width d d = 20 := by
  refine ⟨Plain.filled_width_mono e1 e2 d h12 h2d hd,
    Plain.filled_width_self d hd, ?_, ?_⟩
  · rw [Color.filled_width_eq_plain]
    exact Plain.filled_width_mono e1 e2 d h12 h2d hd
  · rw [Color.filled_width_eq_plain]
    exact Plain.filled_width_self d hd

/-- Witness for `C8_amended` at `e1 = 1`, `e2 = 2`, `d = 3`. -/
theorem C8_amended_witness :
    Plain.filled_width 1 3 ≤ Plain.filled_width 2 3 ∧
    Plain.filled_width 3 3 = 20 ∧
    Color.filled_width 1 3 ≤ Color.filled_width 2 3 ∧
    Color.filled_width 3 3 = 20 :=
  C8_amended 1 2 3 (by decide) (by decide) (by norm_num)

end Sleeper
